import Mathlib

/-!
Verification of the dataset-preparation and evaluation pipeline of a
multi-asset price-direction predictor.

The embedded program has two modules:

* a data loader (`loadFromCSVText` / `prepareDataset`) that pivots raw
  (symbol, date, open, close) rows onto a shared sorted date axis, computes
  per-symbol min-max normalization statistics, builds sliding-window
  samples with rise/fall labels, and splits them chronologically; and
* an evaluator (`computePerStockAccuracy` / `evaluateTestSet`) that
  thresholds predicted probabilities at 0.5, reinterprets flat
  [samples, S*h] matrices as [samples, S, h] (asset-major, horizon-minor)
  and aggregates correctness into per-asset accuracy, overall accuracy and
  per-asset timelines.

Prices and probabilities are modelled as rationals; a slot of an aligned
series is `Option (ℚ × ℚ)` where `none` is the Missing marker (the source
stores `NaN` for both fields of a missing slot, and missing slots always
have both fields missing, so the `Option` of the pair is exact).
-/

/-- A slot of an aligned per-symbol series: `none` is the Missing marker,
`some (o, c)` a present (open, close) pair. -/
abbrev Slot := Option (ℚ × ℚ)

/-- Read slot `t` of a series; an out-of-range read yields Missing (the
source guards future reads with a truthiness check before testing `NaN`). -/
def slotAt (ser : List Slot) (t : ℕ) : Slot := ser.getD t none

/-- The close stored at slot `t` (defaulting to 0 for a missing slot; the
source only reads closes at positions already validated as present). -/
def closeAt (ser : List Slot) (t : ℕ) : ℚ := ((slotAt ser t).getD (0, 0)).2

/-- Window check of `prepareDataset` for one symbol: every position
`t = i + 1 - L + k`, `k < L` (i.e. `seqStart .. i`) holds a present pair;
the source tests both the open and the close for `NaN`. -/
def windowOk (ser : List Slot) (L i : ℕ) : Bool :=
  (List.range L).all (fun k => (slotAt ser (i + 1 - L + k)).isSome)

/-- Future check of `prepareDataset` for one symbol: the close at positions
`i + 1 .. i + h` is present (a slot is present exactly when its close is). -/
def futureOk (ser : List Slot) (h i : ℕ) : Bool :=
  (List.range h).all (fun o => (slotAt ser (i + o + 1)).isSome)

/-- Anchor validity of `prepareDataset`: `seqStart = i - L + 1 ≥ 0` (in ℕ:
`L ≤ i + 1`), `futureEnd = i + h < D`, and for every symbol the window and
future checks pass.  Any failure rejects the whole anchor. -/
def anchorOk (series : List (List Slot)) (L h D i : ℕ) : Bool :=
  decide (L ≤ i + 1) && decide (i + h < D) &&
    series.all (fun ser => windowOk ser L i && futureOk ser h i)

/-- The anchor indices that produce a sample: the loop of `prepareDataset`
runs `i` over `0 .. D - 1` and keeps the anchors passing `anchorOk`. -/
def validAnchors (series : List (List Slot)) (L h D : ℕ) : List ℕ :=
  (List.range D).filter (anchorOk series L h D)

/-- Label vector built at anchor `i`: for each symbol (outer loop,
asset-major) and each offset `o = k + 1` with `k < h` (inner loop,
offset-minor), the entry is 1 when the future close strictly exceeds the
anchor close, else 0.  Mirrors the `sampleOutput` loop of
`prepareDataset` (`futureClose > closeD ? 1 : 0`). -/
def labelVec (series : List (List Slot)) (h i : ℕ) : List ℚ :=
  (series.map (fun ser =>
    (List.range h).map (fun k =>
      if closeAt ser (i + (k + 1)) > closeAt ser i then (1 : ℚ) else 0))).flatten

lemma getD_flatten_of_len (L : List (List ℚ)) (h : ℕ)
    (hl : ∀ l ∈ L, l.length = h) (s k : ℕ) (hs : s < L.length) (hk : k < h) :
    L.flatten.getD (s * h + k) 0 = (L.getD s []).getD k 0 := by
  induction L generalizing s with
  | nil => simp at hs
  | cons a L ih =>
    have ha : a.length = h := hl a (by simp)
    cases s with
    | zero =>
      rw [List.flatten_cons, Nat.zero_mul, Nat.zero_add,
        List.getD_append _ _ _ _ (by omega), List.getD_cons_zero]
    | succ s =>
      have hidx : (s + 1) * h + k = a.length + (s * h + k) := by
        rw [ha]; ring
      rw [List.flatten_cons, hidx, List.getD_append_right _ _ _ _ (by omega),
        Nat.add_sub_cancel_left, List.getD_cons_succ]
      exact ih (fun l hls => hl l (by simp [hls])) s (by simpa using hs)

lemma getD_map_of_lt {α β : Type} (f : α → β) (l : List α) (s : ℕ)
    (hs : s < l.length) (d : β) (e : α) :
    (l.map f).getD s d = f (l.getD s e) := by
  rw [List.getD_eq_getElem _ _ (by simpa using hs), List.getElem_map,
    List.getD_eq_getElem _ _ hs]

lemma getD_range_map {β : Type} (g : ℕ → β) (n k : ℕ) (hk : k < n) (d : β) :
    ((List.range n).map g).getD k d = g k := by
  rw [getD_map_of_lt g _ k (by simpa using hk) d 0,
    List.getD_eq_getElem _ _ (by simpa using hk), List.getElem_range]

lemma labelVec_length (series : List (List Slot)) (h i : ℕ) :
    (labelVec series h i).length = series.length * h := by
  induction series with
  | nil => simp [labelVec]
  | cons a L ih =>
    simp only [labelVec, List.map_cons, List.flatten_cons, List.length_append,
      List.length_map, List.length_range, List.length_cons] at ih ⊢
    rw [ih]
    ring

/-- C1: for every emitted sample with anchor index `i`, every asset index
`s` and every offset `o` from 1 to `h`, the label entry at flat position
`s * h + (o - 1)` (asset-major, offset-minor) is 1 exactly when the close
at `i + o` strictly exceeds the close at `i` for that asset (equality
yields 0), and the label vector has length `S * h`. -/
theorem label_correctness (series : List (List Slot)) (L h D i s o : ℕ)
    (hi : i ∈ validAnchors series L h D) (hs : s < series.length)
    (ho1 : 1 ≤ o) (hoh : o ≤ h) :
    (labelVec series h i).getD (s * h + (o - 1)) 0 =
      (if closeAt (series.getD s []) (i + o) > closeAt (series.getD s []) i
        then (1 : ℚ) else 0) ∧
    (labelVec series h i).length = series.length * h := by
  refine ⟨?_, labelVec_length series h i⟩
  unfold labelVec
  rw [getD_flatten_of_len _ h ?hlen s (o - 1) (by simpa using hs) (by omega)]
  case hlen =>
    intro l hl
    simp only [List.mem_map] at hl
    obtain ⟨ser, _, rfl⟩ := hl
    simp
  rw [getD_map_of_lt _ series s hs [] [], getD_range_map _ h (o - 1) (by omega) 0]
  have hoo : o - 1 + 1 = o := by omega
  rw [hoo]

/-- C2: anchor `i` produces a sample iff `i - L + 1 ≥ 0` (in ℕ arithmetic:
`L ≤ i + 1`), `i + h < D`, and for every symbol every position in
`[i + 1 - L, i]` holds a present (open, close) pair and every position
`i + o`, `1 ≤ o ≤ h`, holds a present close (a slot's close is present
exactly when the slot is); a single missing required value for any symbol
rejects the whole anchor, so no emitted sample's window or future range
touches a Missing slot. -/
theorem anchor_validity (series : List (List Slot)) (L h D i : ℕ) :
    i ∈ validAnchors series L h D ↔
      (L ≤ i + 1 ∧ i + h < D ∧
        ∀ ser ∈ series,
          (∀ t, i + 1 - L ≤ t → t ≤ i → (slotAt ser t).isSome = true) ∧
          (∀ o, 1 ≤ o → o ≤ h → (slotAt ser (i + o)).isSome = true)) := by
  unfold validAnchors anchorOk windowOk futureOk
  rw [List.mem_filter, List.mem_range]
  simp only [Bool.and_eq_true, decide_eq_true_eq, List.all_eq_true,
    List.mem_range]
  constructor
  · rintro ⟨hiD, ⟨⟨hL, hD⟩, hall⟩⟩
    refine ⟨hL, hD, fun ser hser => ?_⟩
    obtain ⟨hw, hf⟩ := hall ser hser
    refine ⟨fun t ht1 ht2 => ?_, fun o ho1 ho2 => ?_⟩
    · have hk := hw (t - (i + 1 - L)) (by omega)
      have he : i + 1 - L + (t - (i + 1 - L)) = t := by omega
      rwa [he] at hk
    · have hk := hf (o - 1) (by omega)
      have he : i + (o - 1) + 1 = i + o := by omega
      rwa [he] at hk
  · rintro ⟨hL, hD, hall⟩
    refine ⟨by omega, ⟨⟨hL, hD⟩, fun ser hser => ?_⟩⟩
    obtain ⟨hw, hf⟩ := hall ser hser
    refine ⟨fun k hk => hw (i + 1 - L + k) (by omega) (by omega),
      fun o ho => ?_⟩
    have hk := hf (o + 1) (by omega) (by omega)
    rwa [show i + (o + 1) = i + o + 1 by omega] at hk

/-- JS `Math.round` on a nonnegative rational: floor(q + 1/2), rounding
halves up, as used on `(trainSplitPercent / 100) * total`. -/
def jsRound (q : ℚ) : ℤ := ⌊q + 1 / 2⌋

/-- `trainCount` of `prepareDataset`: `Math.round((trainSplitPercent / 100)
* total)`. -/
def trainCountOf (p : ℚ) (total : ℕ) : ℕ := (jsRound (p / 100 * total)).toNat

/-- Train side of the chronological split: the slice keeping the first
`trainCount` samples. -/
def splitTrain {α : Type} (l : List α) (tc : ℕ) : List α := l.take tc

/-- Test side of the chronological split: the slice keeping the remaining
`total - trainCount` samples, starting at `trainCount`. -/
def splitTest {α : Type} (l : List α) (tc : ℕ) : List α := l.drop tc

lemma trainCountOf_le (p : ℚ) (total : ℕ) (hp0 : 0 ≤ p) (hp : p ≤ 100) :
    trainCountOf p total ≤ total := by
  unfold trainCountOf jsRound
  have hdiv : p / 100 ≤ 1 := (div_le_one (by norm_num)).mpr hp
  have hmul : p / 100 * (total : ℚ) ≤ 1 * total :=
    mul_le_mul_of_nonneg_right hdiv (by positivity)
  have hx : ⌊p / 100 * (total : ℚ) + 1 / 2⌋ < (total : ℤ) + 1 := by
    rw [Int.floor_lt]
    push_cast
    linarith
  omega

/-- C5: the splitter takes `trainCount = round(p/100 * N)` (half up), the
first `trainCount` samples form the train subset and the remaining
`N - trainCount` the test subset, order preserved; with a sorted
anchor-date sequence every train date is at most every test date; and
with 4 samples at p = 75 the split is 3 train, 1 test. -/
theorem chronological_split (dates : List ℚ) (p : ℚ)
    (hp0 : 0 ≤ p) (hp : p ≤ 100) (hsorted : List.Sorted (· ≤ ·) dates) :
    splitTrain dates (trainCountOf p dates.length) ++
        splitTest dates (trainCountOf p dates.length) = dates ∧
      (splitTrain dates (trainCountOf p dates.length)).length =
        trainCountOf p dates.length ∧
      (splitTest dates (trainCountOf p dates.length)).length =
        dates.length - trainCountOf p dates.length ∧
      (∀ a ∈ splitTrain dates (trainCountOf p dates.length),
        ∀ b ∈ splitTest dates (trainCountOf p dates.length), a ≤ b) ∧
      trainCountOf 75 4 = 3 := by
  refine ⟨List.take_append_drop _ _, ?_, List.length_drop _ _, ?_, ?_⟩
  · show (List.take _ _).length = _
    rw [List.length_take]
    exact Nat.min_eq_left (trainCountOf_le p dates.length hp0 hp)
  · have hsp : List.Pairwise (· ≤ ·)
        (splitTrain dates (trainCountOf p dates.length) ++
          splitTest dates (trainCountOf p dates.length)) := by
      show List.Pairwise (· ≤ ·) (List.take _ _ ++ List.drop _ _)
      rw [List.take_append_drop]
      exact hsorted
    exact (List.pairwise_append.mp hsp).2.2
  · norm_num [trainCountOf, jsRound]
    decide

/-- Witness for C5 at the spec's concrete scenario: 4 sorted anchor dates,
p = 75. -/
theorem chronological_split_witness :
    splitTrain [(1 : ℚ), 2, 3, 4] (trainCountOf 75 4) ++
        splitTest [(1 : ℚ), 2, 3, 4] (trainCountOf 75 4) = [(1 : ℚ), 2, 3, 4] ∧
      (splitTrain [(1 : ℚ), 2, 3, 4] (trainCountOf 75 4)).length = trainCountOf 75 4 ∧
      (splitTest [(1 : ℚ), 2, 3, 4] (trainCountOf 75 4)).length = 4 - trainCountOf 75 4 ∧
      (∀ a ∈ splitTrain [(1 : ℚ), 2, 3, 4] (trainCountOf 75 4),
        ∀ b ∈ splitTest [(1 : ℚ), 2, 3, 4] (trainCountOf 75 4), a ≤ b) ∧
      trainCountOf 75 4 = 3 :=
  chronological_split [(1 : ℚ), 2, 3, 4] 75 (by norm_num) (by norm_num) (by decide)

/-- tfjs `toInt()` casts toward zero; applied to the ground-truth tensor
(`y_test.toInt()`), whose entries are the 0/1 labels. -/
def truncQ (q : ℚ) : ℤ := if 0 ≤ q then ⌊q⌋ else ⌈q⌉

/-- Elementwise threshold of `evaluateTestSet` and
`computePerStockAccuracy`: `preds.greater(tf.scalar(0.5)).toInt()` — 1 on a
strict comparison with 0.5, else 0. -/
def predBin (p : ℚ) : ℤ := if p > 1 / 2 then 1 else 0

/-- Entry [n][j] of a row-major matrix (0 outside bounds; the evaluator
only reads within the declared shape once the reshape has succeeded). -/
def entry (m : List (List ℚ)) (n j : ℕ) : ℚ := (m.getD n []).getD j 0

/-- Correctness bit `preds3.equal(truths3)` at [n, s, t] under the
[samples, S, h] reinterpretation of the flat index `s * h + t`
(asset-major, horizon-minor). -/
def correctBit (P T : List (List ℚ)) (h n s t : ℕ) : ℚ :=
  if predBin (entry P n (s * h + t)) = truncQ (entry T n (s * h + t)) then 1
  else 0

/-- Sum of correctness bits over the horizon axis for one sample and one
asset. -/
def horizonCorrectSum (P T : List (List ℚ)) (h n s : ℕ) : ℚ :=
  ∑ t ∈ Finset.range h, correctBit P T h n s t

/-- `correctPerSamplePerStock`: horizon-axis mean of the correctness bits
(`correctPerHorizon.mean(2)`). -/
def perSampleStockCorrectness (P T : List (List ℚ)) (h n s : ℕ) : ℚ :=
  horizonCorrectSum P T h n s / h

/-- `timelineBinary`: `correctPerSamplePerStock.greater(tf.scalar(0.5)).toInt()`
— the majority-of-horizons bit with a strict comparison. -/
def timelineBinary (P T : List (List ℚ)) (h n s : ℕ) : ℤ :=
  if perSampleStockCorrectness P T h n s > 1 / 2 then 1 else 0

/-- Sum of correctness bits over samples and horizons for one asset. -/
def stockCorrectSum (P T : List (List ℚ)) (h s : ℕ) : ℚ :=
  ∑ n ∈ Finset.range P.length, horizonCorrectSum P T h n s

/-- `perStockAcc[s] = correct.mean([0, 2])`: the correctness mean over the
sample and horizon axes, i.e. a sum of `N * h` bits divided by `N * h`. -/
def perStockAccE (P T : List (List ℚ)) (h s : ℕ) : ℚ :=
  stockCorrectSum P T h s / (P.length * h)

/-- `overallAcc = correct.mean()`: the correctness mean over all three
axes, i.e. a sum of `N * S * h` bits divided by `N * S * h`. -/
def overallAccE (P T : List (List ℚ)) (S h : ℕ) : ℚ :=
  (∑ s ∈ Finset.range S, stockCorrectSum P T h s) / (P.length * S * h)

/-- C3: the binarized prediction is 1 exactly when the probability strictly
exceeds 1/2 (and 0 exactly when it is at most 1/2, so exactly 1/2 gives 0),
and the timeline bit for sample `n`, asset `s` is 1 exactly when the
fraction of correct horizons — the number of horizon offsets whose
binarized prediction equals the truth bit, divided by `h` — strictly
exceeds 1/2 (and 0 when that fraction is at most 1/2). -/
theorem threshold_strict (P T : List (List ℚ)) (h n s : ℕ) (p : ℚ) :
    ((predBin p = 1 ↔ 1 / 2 < p) ∧ (predBin p = 0 ↔ p ≤ 1 / 2)) ∧
    ((timelineBinary P T h n s = 1 ↔
        1 / 2 < (((Finset.range h).filter (fun t =>
            predBin (entry P n (s * h + t)) = truncQ (entry T n (s * h + t)))).card
          : ℚ) / h) ∧
      (timelineBinary P T h n s = 0 ↔
        (((Finset.range h).filter (fun t =>
            predBin (entry P n (s * h + t)) = truncQ (entry T n (s * h + t)))).card
          : ℚ) / h ≤ 1 / 2)) := by
  have h1 : ∀ q : ℚ, ((if q > 1 / 2 then (1 : ℤ) else 0) = 1 ↔ 1 / 2 < q) := by
    intro q
    split <;> simp_all
  have h2 : ∀ q : ℚ, ((if q > 1 / 2 then (1 : ℤ) else 0) = 0 ↔ q ≤ 1 / 2) := by
    intro q
    split <;> simp_all [not_le, not_lt]
  have hfrac : perSampleStockCorrectness P T h n s =
      (((Finset.range h).filter (fun t =>
          predBin (entry P n (s * h + t)) = truncQ (entry T n (s * h + t)))).card
        : ℚ) / h := by
    unfold perSampleStockCorrectness horizonCorrectSum correctBit
    rw [Finset.sum_boole]
  refine ⟨⟨h1 p, h2 p⟩, ?_, ?_⟩
  · rw [show timelineBinary P T h n s =
        (if perSampleStockCorrectness P T h n s > 1 / 2 then (1 : ℤ) else 0)
        from rfl, hfrac]
    exact h1 _
  · rw [show timelineBinary P T h n s =
        (if perSampleStockCorrectness P T h n s > 1 / 2 then (1 : ℤ) else 0)
        from rfl, hfrac]
    exact h2 _

/-- Witness for C1: a one-symbol series with three present dates, L = 1,
h = 1, anchor i = 1; close falls from 11 to 9, so the label entry is 0. -/
theorem label_correctness_witness :
    1 ∈ validAnchors [[some (1, 10), some (1, 11), some (1, 9)]] 1 1 3 ∧
      ((labelVec [[some (1, 10), some (1, 11), some (1, 9)]] 1 1).getD
          (0 * 1 + (1 - 1)) 0 =
        (if closeAt (([[some (1, 10), some (1, 11), some (1, 9)]]
              : List (List Slot)).getD 0 []) (1 + 1) >
            closeAt (([[some (1, 10), some (1, 11), some (1, 9)]]
              : List (List Slot)).getD 0 []) 1
          then (1 : ℚ) else 0) ∧
      (labelVec [[some (1, 10), some (1, 11), some (1, 9)]] 1 1).length =
        ([[some (1, 10), some (1, 11), some (1, 9)]]
          : List (List Slot)).length * 1) :=
  ⟨by decide,
    label_correctness [[some (1, 10), some (1, 11), some (1, 9)]] 1 1 3 1 0 1
      (by decide) (by decide) (by decide) (by decide)⟩

/-- C6: for matching [N, S*h] shapes with N > 0 samples, the overall
accuracy — the correctness mean over all N * S * h entries — equals the
arithmetic mean of the S per-asset accuracies, exactly in rational
arithmetic, because every asset contributes the same number N * h of
correctness entries. -/
theorem overall_eq_mean_perStock (P T : List (List ℚ)) (S h : ℕ)
    (hN : 0 < P.length) (hT : T.length = P.length)
    (hP : ∀ r ∈ P, r.length = S * h) (hTr : ∀ r ∈ T, r.length = S * h) :
    overallAccE P T S h =
      (∑ s ∈ Finset.range S, perStockAccE P T h s) / S := by
  unfold overallAccE perStockAccE
  rw [← Finset.sum_div, div_div]
  congr 1
  ring

/-- Witness for C6: one sample, one asset, one horizon, probability 1 and
truth 1. -/
theorem overall_eq_mean_perStock_witness :
    0 < ([[(1 : ℚ)]] : List (List ℚ)).length ∧
      overallAccE [[(1 : ℚ)]] [[(1 : ℚ)]] 1 1 =
        (∑ s ∈ Finset.range 1, perStockAccE [[(1 : ℚ)]] [[(1 : ℚ)]] 1 s) / 1 :=
  ⟨by decide,
    overall_eq_mean_perStock [[(1 : ℚ)]] [[(1 : ℚ)]] 1 1 (by decide) rfl
      (by decide) (by decide)⟩

/-- The `predArr` component returned by `evaluateTestSet`: `arraySync` of
`preds3`, which is the reshape to [samples, S, h] of the binarized
`predsBin` — thresholded 0/1 values, not the raw probabilities. -/
def predArrE (P : List (List ℚ)) (S h : ℕ) : List (List (List ℚ)) :=
  (List.range P.length).map (fun n => (List.range S).map (fun s =>
    (List.range h).map (fun t => ((predBin (entry P n (s * h + t)) : ℤ) : ℚ))))

/-- The `truthArr` component returned by `evaluateTestSet`: `arraySync` of
`truths3`, the reshape to [samples, S, h] of the toInt-cast ground truth
(on the success path the sample counts of predictions and truths agree). -/
def truthArrE (T : List (List ℚ)) (S h : ℕ) : List (List (List ℚ)) :=
  (List.range T.length).map (fun n => (List.range S).map (fun s =>
    (List.range h).map (fun t => ((truncQ (entry T n (s * h + t)) : ℤ) : ℚ))))

/-- Follows the spec's words, for comparison with `predArrE` (the code
builds no such output): rawPredictions as the predictor's raw
probabilities reinterpreted to [testSamples][S][h], asset-major,
horizon-minor. -/
def rawPredictionsSpec (P : List (List ℚ)) (S h : ℕ) : List (List (List ℚ)) :=
  (List.range P.length).map (fun n => (List.range S).map (fun s =>
    (List.range h).map (fun t => entry P n (s * h + t))))

/-- Counterexample for C4: with one sample, one asset, one horizon and the
raw probability 7/10, the returned predArr entry is the thresholded value
1, not the probability 7/10 the claim promises. -/
theorem rawPredictions_not_probabilities :
    predArrE [[(7 : ℚ) / 10]] 1 1 ≠ rawPredictionsSpec [[(7 : ℚ) / 10]] 1 1 := by
  have h1 : List.range 1 = [0] := rfl
  simp only [predArrE, rawPredictionsSpec, entry, predBin, h1,
    List.length_cons, List.length_nil, List.map_cons, List.map_nil,
    List.getD_cons_zero]
  norm_num

/-- C4 amended: the rawPredictions component (`predArr`) has shape
[testSamples][S][h] in asset-major, horizon-minor order, but each entry is
the 0/1 threshold of the corresponding raw probability (1 exactly when the
probability strictly exceeds 1/2), not the probability itself. -/
theorem rawPredictions_thresholded (P : List (List ℚ)) (S h n s t : ℕ)
    (hn : n < P.length) (hs : s < S) (ht : t < h) :
    (((predArrE P S h).getD n []).getD s []).getD t 0 =
      ((predBin (entry P n (s * h + t)) : ℤ) : ℚ) ∧
    (predArrE P S h).length = P.length := by
  constructor
  · unfold predArrE
    rw [getD_range_map _ _ n hn [], getD_range_map _ _ s hs [],
      getD_range_map _ _ t ht 0]
  · unfold predArrE
    rw [List.length_map, List.length_range]

/-- Witness for C4's amended claim at the counterexample input. -/
theorem rawPredictions_thresholded_witness :
    (((predArrE [[(7 : ℚ) / 10]] 1 1).getD 0 []).getD 0 []).getD 0 0 =
      ((predBin (entry [[(7 : ℚ) / 10]] 0 (0 * 1 + 0)) : ℤ) : ℚ) ∧
    (predArrE [[(7 : ℚ) / 10]] 1 1).length = ([[(7 : ℚ) / 10]]
      : List (List ℚ)).length :=
  rawPredictions_thresholded [[(7 : ℚ) / 10]] 1 1 0 0 0 (by decide) (by decide)
    (by decide)

/-- The evaluator's only failure kind: a reshape size mismatch (the spec's
ShapeError). -/
inductive EvalError
  | shape
deriving DecidableEq

/-- The EvaluationResult assembled by `evaluateTestSet`. -/
structure EvalResult where
  perStockAcc : List ℚ
  overallAcc : ℚ
  perStockTimeline : List (List ℤ)
  predArr : List (List (List ℚ))
  truthArr : List (List (List ℚ))

/-- tfjs `reshape` succeeds exactly when the total element count equals the
target shape product; `(M.map List.length).sum` is the element count of the
tensor M. -/
def reshapeOk (M : List (List ℚ)) (N S h : ℕ) : Bool :=
  decide ((M.map List.length).sum = N * S * h)

/-- `evaluateTestSet`: both `predsBin` and `truths` are reshaped to
[samples, S, h] with samples = P.length (a failing reshape throws — the
ShapeError); on success it assembles per-stock and overall accuracy (from
`computePerStockAccuracy`), the timeline bits transposed to [S, samples],
and the binarized `predArr` / `truthArr`. -/
def evaluateTestSetE (P T : List (List ℚ)) (S h : ℕ) :
    Except EvalError EvalResult :=
  if reshapeOk P P.length S h && reshapeOk T P.length S h then
    Except.ok
      { perStockAcc := (List.range S).map (fun s => perStockAccE P T h s)
        overallAcc := overallAccE P T S h
        perStockTimeline := (List.range S).map (fun s =>
          (List.range P.length).map (fun n => timelineBinary P T h n s))
        predArr := predArrE P S h
        truthArr := truthArrE T S h }
  else Except.error EvalError.shape

/-- C8: the evaluator fails exactly when the predicted or ground-truth
matrix does not match the declared [samples, S * h] element count — and
then with the ShapeError, its only failure — and returns an
EvaluationResult in every other case. -/
theorem evaluator_failure_is_shape (P T : List (List ℚ)) (S h : ℕ) :
    ((∃ r, evaluateTestSetE P T S h = Except.ok r) ↔
      ((P.map List.length).sum = P.length * S * h ∧
        (T.map List.length).sum = P.length * S * h)) ∧
    (evaluateTestSetE P T S h = Except.error EvalError.shape ↔
      ¬((P.map List.length).sum = P.length * S * h ∧
        (T.map List.length).sum = P.length * S * h)) := by
  unfold evaluateTestSetE reshapeOk
  split
  · rename_i hcond
    simp only [Bool.and_eq_true, decide_eq_true_eq] at hcond
    simp [hcond]
  · rename_i hcond
    simp only [Bool.and_eq_true, decide_eq_true_eq] at hcond
    simp [hcond]

/-- The open values present in an aligned series (Missing slots ignored):
`arr.map(a => a.open).filter(v => !Number.isNaN(v))`. -/
def presentOpens (ser : List Slot) : List ℚ :=
  ser.filterMap (fun x => x.map Prod.fst)

/-- The close values present in an aligned series (Missing slots ignored). -/
def presentCloses (ser : List Slot) : List ℚ :=
  ser.filterMap (fun x => x.map Prod.snd)

/-- `Math.min(...xs)` over a nonempty list (the source only applies it to
symbols that occur in at least one row; 0 is an arbitrary empty default). -/
def listMin : List ℚ → ℚ
  | [] => 0
  | x :: xs => xs.foldl min x

/-- `Math.max(...xs)` over a nonempty list. -/
def listMax : List ℚ → ℚ
  | [] => 0
  | x :: xs => xs.foldl max x

/-- The zero-range protection constant `1e-6` of `loadFromCSVText`. -/
def epsRange : ℚ := 1 / 1000000

/-- Per-symbol normalization statistics as stored by `loadFromCSVText`:
min and max independently over the present opens and the present closes of
the entire aligned series, with a max equal to the min bumped to
`min + 1e-6`. -/
structure SymNorm where
  openMin : ℚ
  openMax : ℚ
  closeMin : ℚ
  closeMax : ℚ

/-- The normalizer computed by `loadFromCSVText` for one symbol. -/
def mkNormalizer (ser : List Slot) : SymNorm where
  openMin := listMin (presentOpens ser)
  openMax :=
    if listMax (presentOpens ser) = listMin (presentOpens ser)
    then listMin (presentOpens ser) + epsRange
    else listMax (presentOpens ser)
  closeMin := listMin (presentCloses ser)
  closeMax :=
    if listMax (presentCloses ser) = listMin (presentCloses ser)
    then listMin (presentCloses ser) + epsRange
    else listMax (presentCloses ser)

/-- The min-max scaling applied by `prepareDataset`:
`(v - min) / (max - min)` with the stored (already bumped) max. -/
def normalizeField (mn mx v : ℚ) : ℚ := (v - mn) / (mx - mn)

lemma foldl_min_le_init (xs : List ℚ) (a : ℚ) : xs.foldl min a ≤ a := by
  induction xs generalizing a with
  | nil => simp
  | cons x xs ih => exact le_trans (ih (min a x)) (min_le_left a x)

lemma foldl_min_le_mem (xs : List ℚ) (a x : ℚ) (hx : x ∈ xs) :
    xs.foldl min a ≤ x := by
  induction xs generalizing a with
  | nil => simp at hx
  | cons y ys ih =>
    rcases List.mem_cons.mp hx with rfl | hx'
    · exact le_trans (foldl_min_le_init ys (min a x)) (min_le_right a x)
    · exact ih (min a y) hx'

lemma init_le_foldl_max (xs : List ℚ) (a : ℚ) : a ≤ xs.foldl max a := by
  induction xs generalizing a with
  | nil => simp
  | cons x xs ih => exact le_trans (le_max_left a x) (ih (max a x))

lemma mem_le_foldl_max (xs : List ℚ) (a x : ℚ) (hx : x ∈ xs) :
    x ≤ xs.foldl max a := by
  induction xs generalizing a with
  | nil => simp at hx
  | cons y ys ih =>
    rcases List.mem_cons.mp hx with rfl | hx'
    · exact le_trans (le_max_right a x) (init_le_foldl_max ys (max a x))
    · exact ih (max a y) hx'

lemma listMin_le_of_mem {x : ℚ} {l : List ℚ} (hx : x ∈ l) : listMin l ≤ x := by
  cases l with
  | nil => simp at hx
  | cons y ys =>
    rcases List.mem_cons.mp hx with rfl | hx'
    · exact foldl_min_le_init ys x
    · exact foldl_min_le_mem ys y x hx'

lemma le_listMax_of_mem {x : ℚ} {l : List ℚ} (hx : x ∈ l) : x ≤ listMax l := by
  cases l with
  | nil => simp at hx
  | cons y ys =>
    rcases List.mem_cons.mp hx with rfl | hx'
    · exact init_le_foldl_max ys x
    · exact mem_le_foldl_max ys y x hx'

lemma bumped_max_sub_min_pos {x : ℚ} {l : List ℚ} (hx : x ∈ l) :
    0 < (if listMax l = listMin l then listMin l + epsRange else listMax l)
      - listMin l := by
  have hle : listMin l ≤ listMax l :=
    le_trans (listMin_le_of_mem hx) (le_listMax_of_mem hx)
  split
  · unfold epsRange
    norm_num
  · rename_i hne
    have : listMin l < listMax l := lt_of_le_of_ne hle (fun hc => hne hc.symm)
    linarith

/-- C7: the stored statistics bound every present open (resp. close) of
the aligned series between the stored min and the raw max (Missing slots
ignored), the stored max is the raw max bumped to `min + 1e-6` only when
the raw max equals the min, and min-max scaling round-trips exactly:
`normalized * (max - min) + min = value` for every present value of either
field (exact in rational arithmetic; the denominator is never zero thanks
to the bump). -/
theorem normalization_roundtrip (ser : List Slot) (op cl : ℚ)
    (hmem : some (op, cl) ∈ ser) :
    (mkNormalizer ser).openMin ≤ op ∧ op ≤ listMax (presentOpens ser) ∧
    (mkNormalizer ser).closeMin ≤ cl ∧ cl ≤ listMax (presentCloses ser) ∧
    normalizeField (mkNormalizer ser).openMin (mkNormalizer ser).openMax op *
        ((mkNormalizer ser).openMax - (mkNormalizer ser).openMin) +
      (mkNormalizer ser).openMin = op ∧
    normalizeField (mkNormalizer ser).closeMin (mkNormalizer ser).closeMax cl *
        ((mkNormalizer ser).closeMax - (mkNormalizer ser).closeMin) +
      (mkNormalizer ser).closeMin = cl := by
  have hop : op ∈ presentOpens ser :=
    List.mem_filterMap.mpr ⟨some (op, cl), hmem, rfl⟩
  have hcl : cl ∈ presentCloses ser :=
    List.mem_filterMap.mpr ⟨some (op, cl), hmem, rfl⟩
  have hdo : (0 : ℚ) < (mkNormalizer ser).openMax - (mkNormalizer ser).openMin :=
    bumped_max_sub_min_pos hop
  have hdc : (0 : ℚ) <
      (mkNormalizer ser).closeMax - (mkNormalizer ser).closeMin :=
    bumped_max_sub_min_pos hcl
  refine ⟨listMin_le_of_mem hop, le_listMax_of_mem hop,
    listMin_le_of_mem hcl, le_listMax_of_mem hcl, ?_, ?_⟩
  · unfold normalizeField
    rw [div_mul_cancel₀ _ (ne_of_gt hdo)]
    ring
  · unfold normalizeField
    rw [div_mul_cancel₀ _ (ne_of_gt hdc)]
    ring

/-- Witness for C7: a two-slot series with one present pair and one
Missing slot; both fields have equal min and max, exercising the `1e-6`
bump. -/
theorem normalization_roundtrip_witness :
    (mkNormalizer [some (3, 4), none]).openMin ≤ 3 ∧
      (3 : ℚ) ≤ listMax (presentOpens [some (3, 4), none]) ∧
      (mkNormalizer [some (3, 4), none]).closeMin ≤ 4 ∧
      (4 : ℚ) ≤ listMax (presentCloses [some (3, 4), none]) ∧
      normalizeField (mkNormalizer [some (3, 4), none]).openMin
          (mkNormalizer [some (3, 4), none]).openMax 3 *
          ((mkNormalizer [some (3, 4), none]).openMax -
            (mkNormalizer [some (3, 4), none]).openMin) +
        (mkNormalizer [some (3, 4), none]).openMin = 3 ∧
      normalizeField (mkNormalizer [some (3, 4), none]).closeMin
          (mkNormalizer [some (3, 4), none]).closeMax 4 *
          ((mkNormalizer [some (3, 4), none]).closeMax -
            (mkNormalizer [some (3, 4), none]).closeMin) +
        (mkNormalizer [some (3, 4), none]).closeMin = 4 :=
  normalization_roundtrip [some (3, 4), none] 3 4 (by decide)

/-- A parsed CSV row surviving basic validation in `loadFromCSVText`
(non-empty symbol and date, numeric open and close), after date
normalization. -/
structure Row where
  sym : String
  date : String
  openV : ℚ
  closeV : ℚ

/-- Lexicographic comparison of character lists by code point, modelling
the code-unit order of the JS default sort comparator. -/
def lexLe : List Char → List Char → Bool
  | [], _ => true
  | _ :: _, [] => false
  | a :: as, b :: bs =>
    if a.toNat < b.toNat then true
    else if b.toNat < a.toNat then false
    else lexLe as bs

/-- Code-unit comparison of strings. -/
def strLe (a b : String) : Bool := lexLe a.data b.data

/-- Insertion of a string into a sorted list, for the comparator sort of
`Array.from(symbolSet).sort()` (lexicographic code-unit order). -/
def insertSorted (a : String) : List String → List String
  | [] => [a]
  | b :: bs => if strLe a b then a :: b :: bs else b :: insertSorted a bs

/-- Insertion sort over strings. -/
def sortStrings (l : List String) : List String := l.foldr insertSorted []

/-- The symbols discovered by `loadFromCSVText`:
`Array.from(symbolSet).sort()` — the distinct row symbols (first
occurrences, like the JS Set) in sorted order. -/
def discoveredSymbols (rows : List Row) : List String :=
  sortStrings (rows.map Row.sym).dedup

/-- The options destructured by the DataLoader constructor: only
`sequenceLength` and `forecastHorizon`; there is no `expectedSymbolCount`
option. -/
structure LoaderConfig where
  sequenceLength : ℕ := 12
  forecastHorizon : ℕ := 3

/-- The warning condition of `loadFromCSVText`:
`this.symbols.length !== 10` — the expected count 10 is hardcoded; the
configuration argument is accepted here only to show it plays no role. -/
def loadWarning (cfg : LoaderConfig) (rows : List Row) : Bool :=
  decide ((discoveredSymbols rows).length ≠ 10)

/-- Follows the spec's words, for comparison with `loadWarning` (the code
recognizes no such option): warn iff the discovered symbol count differs
from the configured expected count. -/
def specExpectedCountWarning (expectedSymbolCount : ℕ) (rows : List Row) :
    Bool :=
  decide ((discoveredSymbols rows).length ≠ expectedSymbolCount)

lemma length_insertSorted (a : String) (l : List String) :
    (insertSorted a l).length = l.length + 1 := by
  induction l with
  | nil => rfl
  | cons b bs ih =>
    unfold insertSorted
    split
    · rfl
    · simp [ih]

lemma length_sortStrings (l : List String) :
    (sortStrings l).length = l.length := by
  induction l with
  | nil => rfl
  | cons a l ih =>
    unfold sortStrings at ih ⊢
    rw [List.foldr_cons, length_insertSorted, ih, List.length_cons]

/-- Counterexample for C9: five rows with five distinct symbols.  The
loader still warns (5 differs from the hardcoded 10), although the claim,
with expectedSymbolCount configured to 5, predicts no warning. -/
theorem symbol_warning_counterexample :
    loadWarning {} [⟨"A", "d", 1, 1⟩, ⟨"B", "d", 1, 1⟩, ⟨"C", "d", 1, 1⟩,
        ⟨"D", "d", 1, 1⟩, ⟨"E", "d", 1, 1⟩] = true ∧
      specExpectedCountWarning 5 [⟨"A", "d", 1, 1⟩, ⟨"B", "d", 1, 1⟩,
        ⟨"C", "d", 1, 1⟩, ⟨"D", "d", 1, 1⟩, ⟨"E", "d", 1, 1⟩] = false := by
  constructor <;> decide

/-- C9 amended: after loading, the non-fatal warning is emitted iff the
number of distinct discovered symbols differs from the hardcoded constant
10; the warning does not depend on the configuration, and no configuration
option supplies an expected count. -/
theorem symbol_warning_hardcoded (cfg cfg' : LoaderConfig) (rows : List Row) :
    loadWarning cfg rows = loadWarning cfg' rows ∧
      (loadWarning cfg rows = false ↔
        (rows.map Row.sym).dedup.length = 10) := by
  refine ⟨rfl, ?_⟩
  unfold loadWarning discoveredSymbols
  rw [length_sortStrings]
  simp
